import Mathlib

/-!
Verification development for the obsidian-claude-code plugin.

The TypeScript sources are embedded shallowly: strings become `List Char`,
JavaScript runtime values become the inductive `JSVal`, records become
association lists, and fallible code returns `Option`.  Components of the
ACP engine that are documented but whose implementation files are not part
of the studied tree (session state machine, request correlator, message
codec, chat-view event handlers) are modelled from the specification text;
their doc comments say so explicitly.
-/

/-- Strings of the embedded programs: JavaScript strings as lists of chars. -/
abbrev Str := List Char

/-- Whitespace recognised by the embedded `trim` (the ASCII whitespace that
occurs in the data this plugin handles). -/
def jsWS (c : Char) : Bool :=
  c == ' ' || c == '\t' || c == '\n' || c == '\r'

/-- Embedding of JavaScript `String.prototype.trim`: drop whitespace from
both ends. -/
def trimChars (s : Str) : Str :=
  ((s.dropWhile jsWS).reverse.dropWhile jsWS).reverse

/-- Split a string at every newline character (JavaScript `split("\n")`).
Always returns at least one (possibly empty) piece. -/
def splitNl : Str → List Str
  | [] => [[]]
  | c :: cs =>
      if c = '\n' then [] :: splitNl cs
      else
        match splitNl cs with
        | [] => [[c]]
        | p :: ps => (c :: p) :: ps

/-- Drop a single trailing carriage return, if present. -/
def dropTrailingCR (s : Str) : Str :=
  if s.getLast? = some '\r' then s.dropLast else s

/-- Embedding of JavaScript `split(/\r?\n/)`: split at `"\n"` and strip one
carriage return left at the end of each piece by a `"\r\n"` separator. -/
def splitCRLF (s : Str) : List Str :=
  (splitNl s).map dropTrailingCR

/-- JavaScript runtime values, as far as the embedded functions inspect
them: strings, numbers, booleans, `null`, `undefined`, arrays and plain
objects (association lists of fields). -/
inductive JSVal where
  | vstr (s : Str)
  | vnum (n : Int)
  | vbool (b : Bool)
  | vnull
  | vundefined
  | varr (items : List JSVal)
  | vobj (fields : List (Str × JSVal))
deriving Inhabited

/-- JavaScript truthiness for the embedded values (`NaN` does not occur in
the embedded universe; numbers are integers). -/
def jsTruthy : JSVal → Bool
  | .vstr s => !s.isEmpty
  | .vnum n => decide (n ≠ 0)
  | .vbool b => b
  | .vnull => false
  | .vundefined => false
  | .varr _ => true
  | .vobj _ => true

/-- Property read `obj[k]` on an embedded object's field list: the first
binding wins, a missing property is `undefined`. -/
def objGet (fields : List (Str × JSVal)) (k : Str) : JSVal :=
  match fields.find? (fun f => decide (f.1 = k)) with
  | some f => f.2
  | none => .vundefined

/-- Source `src/shared/settings-utils.ts`, `sanitizeArgs`: arrays keep their
string elements trimmed and non-empty; strings are split on `/\r?\n/`,
trimmed and filtered; everything else yields `[]`. -/
def sanitizeArgs : JSVal → List Str
  | .varr items =>
      (items.map fun it =>
        match it with
        | .vstr s => trimChars s
        | _ => []).filter (fun s => !s.isEmpty)
  | .vstr s =>
      ((splitCRLF s).map trimChars).filter (fun s => !s.isEmpty)
  | _ => []

/-- The `AgentEnvVar` record of `src/domain/models/agent-config.ts`:
a key/value pair of strings. -/
structure AgentEnvVar where
  key : Str
  value : Str
deriving DecidableEq

/-- Body of the per-entry check inside `normalizeEnvVars`' array branch:
an entry contributes a pair exactly when it is a truthy object whose `key`
property is a string with non-empty trim; the value is kept when it is a
string and replaced by `""` otherwise. -/
def normalizeEntry (entry : JSVal) : Option AgentEnvVar :=
  match entry with
  | .vobj fields =>
      match objGet fields ['k','e','y'] with
      | .vstr k =>
          if (trimChars k).isEmpty then none
          else
            some ⟨trimChars k,
                  match objGet fields ['v','a','l','u','e'] with
                  | .vstr v => v
                  | _ => []⟩
      | _ => none
  | _ => none

/-- The `seen`-set filter at the end of `normalizeEnvVars`: keep a pair
only when its key has not been seen yet. -/
def dedupFirstAux (seen : List Str) : List AgentEnvVar → List AgentEnvVar
  | [] => []
  | p :: ps =>
      if p.key ∈ seen then dedupFirstAux seen ps
      else p :: dedupFirstAux (p.key :: seen) ps

/-- Source `src/shared/settings-utils.ts`, `normalizeEnvVars`: convert a
stored env structure (array of entries or plain object) into a list of
pairs with trimmed non-empty keys, then deduplicate keeping the first
occurrence of each key. -/
def normalizeEnvVars (value : JSVal) : List AgentEnvVar :=
  if !jsTruthy value then []
  else
    let pairs : List AgentEnvVar :=
      match value with
      | .varr entries => entries.filterMap normalizeEntry
      | .vobj fields =>
          fields.filterMap fun f =>
            if (trimChars f.1).isEmpty then none
            else
              some ⟨trimChars f.1,
                    match f.2 with
                    | .vstr v => v
                    | _ => []⟩
      | _ => []
    dedupFirstAux [] pairs

/-- Encoding of an `EnvVar`-shaped entry (`{key, value}` with string
fields) back into the JavaScript value universe. -/
def encodeEnvVar (e : AgentEnvVar) : JSVal :=
  .vobj [(['k','e','y'], .vstr e.key), (['v','a','l','u','e'], .vstr e.value)]

/-- Deduplication written from the spec's words: keep each entry whose key
did not occur in an earlier entry (first occurrence wins). -/
def specDedupFirst : List AgentEnvVar → List AgentEnvVar
  | [] => []
  | p :: ps =>
      p :: specDedupFirst (ps.filter fun q => decide (q.key ≠ p.key))
termination_by l => l.length
decreasing_by
  simp only [List.length_cons]
  exact Nat.lt_succ_of_le (List.length_filter_le _ _)

/-- Normalization written from the spec's words: trim whitespace from keys,
drop entries whose trimmed key is empty, deduplicate by key with the first
occurrence winning. -/
def specNormalize (l : List AgentEnvVar) : List AgentEnvVar :=
  specDedupFirst (l.filterMap fun e =>
    if (trimChars e.key).isEmpty then none
    else some ⟨trimChars e.key, e.value⟩)

/-- The `BaseAgentSettings` record of `src/domain/models/agent-config.ts`,
as consumed by `toAgentConfig` and produced by `loadSettings`. -/
structure BaseAgentSettings where
  id : Str
  displayName : Str
  apiKey : Str
  command : Str
  args : List Str
  env : List AgentEnvVar

/-- The runtime `AgentConfig` record of
`src/domain/ports/agent-client.port.ts`; `env` is the JavaScript object
built by `toAgentConfig`, embedded as an ordered field list. -/
structure AgentConfig where
  id : Str
  displayName : Str
  command : Str
  args : List Str
  env : List (Str × Str)
  workingDirectory : Str

/-- JavaScript property assignment `acc[key] = value` on an object's field
list: overwrite in place when the key is present, append otherwise. -/
def recordSet (m : List (Str × Str)) (k v : Str) : List (Str × Str) :=
  if m.any (fun p => decide (p.1 = k)) then
    m.map fun p => if p.1 = k then (k, v) else p
  else m ++ [(k, v)]

/-- Property read on the field list built by `recordSet`. -/
def recordLookup (m : List (Str × Str)) (k : Str) : Option Str :=
  (m.find? (fun p => decide (p.1 = k))).map (·.2)

/-- The `reduce` in `toAgentConfig` that folds `AgentEnvVar[]` into a
`Record<string, string>`. -/
def buildEnv (l : List AgentEnvVar) : List (Str × Str) :=
  l.foldl (fun acc e => recordSet acc e.key e.value) []

/-- Source `src/shared/settings-utils.ts`, `toAgentConfig`: copy the
settings fields verbatim and fold the env list into an object. -/
def toAgentConfig (settings : BaseAgentSettings) (workingDirectory : Str) :
    AgentConfig :=
  { id := settings.id
    displayName := settings.displayName
    command := settings.command
    args := settings.args
    env := buildEnv settings.env
    workingDirectory := workingDirectory }

/-- Value of the last occurrence of a key in an env list, written from the
spec's words (last write wins). -/
def lastOcc (l : List AgentEnvVar) (k : Str) : Option Str :=
  l.foldl (fun acc e => if e.key = k then some e.value else acc) none

/-- The `claude` part of `DEFAULT_SETTINGS` in `src/plugin.ts`: note the
empty `command`. -/
def DEFAULT_claude : BaseAgentSettings :=
  { id := "claude-code-acp".toList
    displayName := "Claude Code".toList
    apiKey := []
    command := []
    args := []
    env := [] }

/-- The legacy fallback inside `loadSettings`' command resolution: use
`rawSettings.claudeCodeAcpCommandPath` when it is a string with non-empty
trim, else the default (empty) command. -/
def loadLegacyCommand (legacyField : JSVal) : Str :=
  match legacyField with
  | .vstr s =>
      if (trimChars s).isEmpty then DEFAULT_claude.command else trimChars s
  | _ => DEFAULT_claude.command

/-- Source `src/plugin.ts`, `loadSettings`' resolution of
`settings.claude.command`: the raw `claude.command` field when it is a
string with non-empty trim, else the legacy field, else the default. -/
def loadClaudeCommand (cmdField legacyField : JSVal) : Str :=
  match cmdField with
  | .vstr s =>
      if (trimChars s).isEmpty then loadLegacyCommand legacyField
      else trimChars s
  | _ => loadLegacyCommand legacyField

/-- One callback step of a registered host command: focus the chat view or
fire a workspace event. -/
inductive HostAction where
  | activateView
  | triggerEvent (event : Str)
deriving DecidableEq

/-- A host command registered through `addCommand`. -/
structure HostCommand where
  id : Str
  name : Str
  actions : List HostAction
deriving DecidableEq

/-- Source `src/plugin.ts`, `registerPermissionCommands`: the four
commands it registers, each with the actions its callback performs in
order. -/
def registerPermissionCommands : List HostCommand :=
  [ ⟨"approve-active-permission".toList, "Approve active permission".toList,
      [.activateView,
       .triggerEvent "agent-client:approve-active-permission".toList]⟩,
    ⟨"reject-active-permission".toList, "Reject active permission".toList,
      [.activateView,
       .triggerEvent "agent-client:reject-active-permission".toList]⟩,
    ⟨"toggle-auto-mention".toList, "Toggle auto-mention".toList,
      [.activateView,
       .triggerEvent "agent-client:toggle-auto-mention".toList]⟩,
    ⟨"cancel-current-message".toList, "Cancel current message".toList,
      [.triggerEvent "agent-client:cancel-message".toList]⟩ ]

/-- Engine operations of the session state machine that host commands can
drive (spec section 6). -/
inductive EngineOp where
  | cancelTurn
  | resolvePermissionApprove
  | resolvePermissionReject
deriving DecidableEq

/-- Modelled from the spec: the chat view's workspace-event handlers are
not part of the studied tree; per spec section 6 each agent-client event
maps directly to the corresponding engine operation on the active session
(`cancel` / `resolvePermission` approve / `resolvePermission` reject). -/
def dispatchEvent (e : Str) : Option EngineOp :=
  if e = "agent-client:approve-active-permission".toList then
    some .resolvePermissionApprove
  else if e = "agent-client:reject-active-permission".toList then
    some .resolvePermissionReject
  else if e = "agent-client:cancel-message".toList then
    some .cancelTurn
  else none

/-- Engine operations a host command dispatches: the events its callback
triggers, routed through the event handlers. -/
def commandDispatches (c : HostCommand) : List EngineOp :=
  c.actions.filterMap fun a =>
    match a with
    | .triggerEvent e => dispatchEvent e
    | _ => none

/-- Boolean test that `s` begins with `pat`. -/
def strStartsWith : Str → Str → Bool
  | _, [] => true
  | [], _ :: _ => false
  | c :: cs, p :: ps => c == p && strStartsWith cs ps

/-- Boolean test that `s` ends with `pat` (JavaScript `endsWith`). -/
def strEndsWith (s pat : Str) : Bool :=
  strStartsWith s.reverse pat.reverse

/-- Index of the first occurrence of `pat` inside `s`, if any. -/
def findSeq (pat : Str) : Str → Option Nat
  | [] => if pat.isEmpty then some 0 else none
  | c :: cs =>
      if strStartsWith (c :: cs) pat then some 0
      else (findSeq pat cs).map (· + 1)

/-- Index of the first occurrence of a character (JavaScript `indexOf`,
with absence as `none` instead of `-1`). -/
def findChar (ch : Char) : Str → Option Nat
  | [] => none
  | c :: cs => if c = ch then some 0 else (findChar ch cs).map (· + 1)

/-- One backtracking attempt of the frontmatter regex (pattern
`^---\s*\n` followed by a lazy capture and `\n---`) after the opening
dashes: with the `\s*` part
consuming `j` characters, the next character must be a newline and the lazy
capture runs to the first later `"\n---"`. -/
def fmTry (rest : Str) (j : Nat) : Option Str :=
  if (rest.drop j).head? = some '\n' then
    match findSeq ['\n','-','-','-'] (rest.drop (j + 1)) with
    | some q => some ((rest.drop (j + 1)).take q)
    | none => none
  else none

/-- The capture of the frontmatter regex on the whole file content: the
content must start with `---`; the greedy `\s*` tries the longest
whitespace run first, so candidate newline positions are tried in
descending order. -/
def parseFmCapture (content : Str) : Option Str :=
  if strStartsWith content ['-','-','-'] then
    let rest := content.drop 3
    ((List.range (rest.takeWhile jsWS).length).reverse).findSome?
      (fun j => fmTry rest j)
  else none

/-- Source `src/adapters/obsidian/subagent-service.ts`, the key/value loop
of `parseFrontmatter`: for each line of the captured block whose first
colon is at a positive index, assign the trimmed key the trimmed value
(later lines overwrite earlier ones). -/
def parseFmLines (yaml : Str) : List (Str × Str) :=
  (splitNl yaml).foldl
    (fun fm line =>
      match findChar ':' line with
      | some i => if 0 < i then
            recordSet fm (trimChars (line.take i))
              (trimChars (line.drop (i + 1)))
          else fm
      | none => fm)
    []

/-- Source `src/adapters/obsidian/subagent-service.ts`,
`parseFrontmatter`: `none` when the regex does not match, else the parsed
key/value mapping. -/
def parseFrontmatter (content : Str) : Option (List (Str × Str)) :=
  (parseFmCapture content).map parseFmLines

/-- Property read on a parsed frontmatter mapping; `recordSet` keeps keys
unique, so the first binding is the binding. -/
def fmGet (fm : List (Str × Str)) (k : Str) : Option Str :=
  (fm.find? (fun p => decide (p.1 = k))).map (·.2)

/-- The `SubAgentMetadata` record of
`src/domain/ports/vault-access.port.ts`. -/
structure SubAgentMetadata where
  name : Str
  description : Str
  model : Option Str
  color : Option Str
  emoji : Str
  filePath : Str
deriving DecidableEq

/-- The robot emoji constant assigned to every sub-agent entry. -/
def robotEmoji : Str := "🤖".toList

/-- A directory entry as the service sees it: a file name plus its content,
with `none` standing for a `readFileSync` failure. -/
structure FsFile where
  name : Str
  content : Option Str
deriving DecidableEq

/-- The filesystem state `getSubAgents` runs against: whether the agents
directory exists, whether listing it fails, and its files. -/
structure FsState where
  dirExists : Bool
  readDirError : Bool
  files : List FsFile

/-- Path concatenation as used for `path.join(this.agentsDir, file)`. -/
def pathJoin (dir file : Str) : Str := dir ++ '/' :: file

/-- The agents directory path, with the home directory abbreviated. -/
def agentsDir : Str := "~/.claude/agents".toList

/-- The per-file body of the `getSubAgents` loop: parse the frontmatter and
build an entry when both `name` and `description` are truthy (present with
non-empty value). -/
def subAgentOf (filePath content : Str) : Option SubAgentMetadata :=
  match parseFrontmatter content with
  | none => none
  | some fm =>
      match fmGet fm "name".toList, fmGet fm "description".toList with
      | some n, some d =>
          if !n.isEmpty && !d.isEmpty then
            some ⟨n, d, fmGet fm "model".toList, fmGet fm "color".toList,
                  robotEmoji, filePath⟩
          else none
      | _, _ => none

/-- The read loop of `getSubAgents` over the `.md` files, with `none`
standing for a thrown read error that aborts the whole loop. -/
def readLoop : List FsFile → List SubAgentMetadata →
    Option (List SubAgentMetadata)
  | [], acc => some acc
  | f :: rest, acc =>
      match f.content with
      | none => none
      | some content =>
          match subAgentOf (pathJoin agentsDir f.name) content with
          | some sa => readLoop rest (acc ++ [sa])
          | none => readLoop rest acc

/-- Source `src/adapters/obsidian/subagent-service.ts`, `getSubAgents`:
empty when the directory is missing, when listing it fails, or when any
`.md` read throws (the surrounding `catch` returns `[]`); otherwise the
entries collected from the `.md` files. -/
def getSubAgents (fs : FsState) : List SubAgentMetadata :=
  if !fs.dirExists then []
  else if fs.readDirError then []
  else
    match readLoop (fs.files.filter fun f => strEndsWith f.name ".md".toList)
        [] with
    | some l => l
    | none => []

/-- Claim-side reading for the frontmatter condition: the file's
frontmatter block parses and defines the given key (with any value). -/
def fmDefines (content : Str) (k : Str) : Bool :=
  match parseFrontmatter content with
  | some fm => (fm.find? (fun p => decide (p.1 = k))).isSome
  | none => false

/-- Content of the file refuting the claim-side reading: its frontmatter
defines both a `name` and a `description` key, but `name`'s value is
empty, hence falsy. -/
def ceContent : Str := "---\nname:\ndescription: demo\n---\nbody".toList

/-- Filesystem state holding only the refuting file. -/
def ceFs : FsState :=
  { dirExists := true
    readDirError := false
    files := [⟨"a.md".toList, some ceContent⟩] }

/-- Modelled from the spec: the session states of the ACP session state
machine (spec section 4.4); its implementation file is not part of the
studied tree. -/
inductive SessionState where
  | uninitialized
  | initializing
  | ready
  | busy
  | cancelling
  | closed
  | errored
deriving DecidableEq

/-- Modelled from the spec: the consumer calls and inbound protocol events
that drive one session. -/
inductive SessionOp where
  | initOp
  | handshakeOk
  | sendTurn
  | turnEnded
  | cancel
  | closeSession
  | transportExit
deriving DecidableEq

/-- Modelled from the spec: the synchronous outcome of one operation. -/
inductive OpResult where
  | ok
  | sessionBusyError
  | invalidOp
deriving DecidableEq

/-- Modelled from the spec: a session is its state plus the number of
turns currently in flight (a turn is in flight from an accepted `sendTurn`
until its `TurnEnded`, also while cancelling). -/
structure Session where
  state : SessionState
  inFlight : Nat
deriving DecidableEq

/-- Modelled from the spec: the session just created by the chat view. -/
def initialSession : Session := ⟨.uninitialized, 0⟩

/-- Modelled from the spec (section 4.4): one step of the session state
machine.  `sendTurn` is accepted only from `ready`; from `busy` it fails
synchronously with `SessionBusyError` and changes nothing; a transport
exit ends the current turn and moves the session to `errored`. -/
def stepSession (s : Session) : SessionOp → OpResult × Session
  | .initOp =>
      if s.state = .uninitialized then (.ok, ⟨.initializing, s.inFlight⟩)
      else (.invalidOp, s)
  | .handshakeOk =>
      if s.state = .initializing then (.ok, ⟨.ready, s.inFlight⟩)
      else (.invalidOp, s)
  | .sendTurn =>
      if s.state = .ready then (.ok, ⟨.busy, s.inFlight + 1⟩)
      else if s.state = .busy then (.sessionBusyError, s)
      else (.invalidOp, s)
  | .turnEnded =>
      if s.state = .busy ∨ s.state = .cancelling then
        (.ok, ⟨.ready, s.inFlight - 1⟩)
      else (.invalidOp, s)
  | .cancel =>
      if s.state = .busy then (.ok, ⟨.cancelling, s.inFlight⟩)
      else (.invalidOp, s)
  | .closeSession =>
      if s.state = .ready ∨ s.state = .errored then
        (.ok, ⟨.closed, s.inFlight⟩)
      else (.invalidOp, s)
  | .transportExit => (.ok, ⟨.errored, 0⟩)

/-- Modelled from the spec: run a sequence of operations from a session,
discarding the synchronous results. -/
def runSession (s : Session) : List SessionOp → Session
  | [] => s
  | op :: ops => runSession (stepSession s op).2 ops

/-- Modelled from the spec: the outcome recorded for one `PendingRequest`
when it is resolved. -/
inductive ResOutcome where
  | okResponse
  | failed (reason : Str)
deriving DecidableEq

/-- Modelled from the spec (section 4.3): the request correlator's state —
the id counter (starting at 1), the ids of outstanding requests, and, as a
ghost history, the log of resolution events in order. -/
structure Correlator where
  nextId : Nat
  pending : List Nat
  log : List (Nat × ResOutcome)
deriving DecidableEq

/-- Modelled from the spec: the correlator at process start. -/
def initialCorrelator : Correlator := ⟨1, [], []⟩

/-- Modelled from the spec: the operations a correlator undergoes. -/
inductive CorrOp where
  | issue
  | resolve (id : Nat)
  | failAll (reason : Str)
deriving DecidableEq

/-- Modelled from the spec: `issue` hands out the counter value and
increments it; the new id becomes outstanding. -/
def corrIssue (c : Correlator) : Nat × Correlator :=
  (c.nextId, ⟨c.nextId + 1, c.pending ++ [c.nextId], c.log⟩)

/-- Modelled from the spec: `resolve` matches an inbound response to its
outstanding request; an unknown id (`UnknownRequestId`) is a logged
no-op. -/
def corrResolve (c : Correlator) (id : Nat) : Correlator :=
  if id ∈ c.pending then
    ⟨c.nextId, c.pending.erase id, c.log ++ [(id, .okResponse)]⟩
  else c

/-- Modelled from the spec: `failAll` resolves every outstanding request
with a failure carrying the reason and leaves none outstanding. -/
def corrFailAll (c : Correlator) (reason : Str) : Correlator :=
  ⟨c.nextId, [], c.log ++ c.pending.map (fun id => (id, .failed reason))⟩

/-- Modelled from the spec: one correlator step. -/
def stepCorr (c : Correlator) : CorrOp → Correlator
  | .issue => (corrIssue c).2
  | .resolve id => corrResolve c id
  | .failAll reason => corrFailAll c reason

/-- Modelled from the spec: run a sequence of correlator operations. -/
def runCorr (c : Correlator) : List CorrOp → Correlator
  | [] => c
  | op :: ops => runCorr (stepCorr c op) ops

/-- Ids handed out along a sequence of operations, in order. -/
def issuedIds (c : Correlator) : List CorrOp → List Nat
  | [] => []
  | .issue :: ops => (corrIssue c).1 :: issuedIds (corrIssue c).2 ops
  | op :: ops => issuedIds (stepCorr c op) ops

/-- Number of `issue` operations in a sequence. -/
def countIssues (ops : List CorrOp) : Nat :=
  (ops.filter fun op => decide (op = CorrOp.issue)).length

/-- Modelled from the spec (section 4.2): the codec's inbound framing
state is the buffered incomplete trailing fragment.  Feeding a chunk
yields the complete newline-terminated lines and the new fragment;
message decoding is applied per complete line downstream, so framing
determines the message sequence. -/
def feedCodec (buf : Str) : Str → List Str × Str
  | [] => ([], buf)
  | c :: cs =>
      if c = '\n' then
        let r := feedCodec [] cs
        (buf :: r.1, r.2)
      else feedCodec (buf ++ [c]) cs

/-- Modelled from the spec: deliver a sequence of chunks to the codec one
call at a time, collecting all decoded lines. -/
def feedCodecAll (buf : Str) : List Str → List Str × Str
  | [] => ([], buf)
  | chunk :: chunks =>
      let r := feedCodec buf chunk
      let rs := feedCodecAll r.2 chunks
      (r.1 ++ rs.1, rs.2)

theorem dropWhile_head_false (p : Char → Bool) (l : Str) (c : Char)
    (h : (l.dropWhile p).head? = some c) : p c = false := by
  have hd := List.head?_dropWhile_not p l
  rw [h] at hd
  exact hd

theorem getLast?_dropWhile_of_ne_nil (p : Char → Bool) :
    ∀ l : Str, l.dropWhile p ≠ [] → (l.dropWhile p).getLast? = l.getLast? := by
  intro l
  induction l with
  | nil => simp
  | cons c cs ih =>
    simp only [List.dropWhile_cons]
    split
    · intro h
      rw [ih h]
      cases cs with
      | nil => exact absurd rfl h
      | cons d ds => rfl
    · intro _
      rfl

theorem dropWhile_eq_self_of_head (p : Char → Bool) (l : Str)
    (h : ∀ c, l.head? = some c → p c = false) : l.dropWhile p = l := by
  cases l with
  | nil => rfl
  | cons c cs => simp [List.dropWhile_cons, h c rfl]

theorem trimChars_getLast (s : Str) (c : Char)
    (h : (trimChars s).getLast? = some c) : jsWS c = false := by
  unfold trimChars at h
  rw [List.getLast?_reverse] at h
  exact dropWhile_head_false jsWS _ c h

theorem trimChars_head (s : Str) (c : Char)
    (h : (trimChars s).head? = some c) : jsWS c = false := by
  unfold trimChars at h
  rw [List.head?_reverse] at h
  by_cases hne : ((s.dropWhile jsWS).reverse).dropWhile jsWS = []
  · rw [hne] at h
    exact absurd h (by simp)
  · rw [getLast?_dropWhile_of_ne_nil jsWS _ hne, List.getLast?_reverse] at h
    exact dropWhile_head_false jsWS _ c h

theorem trimChars_of_trimmed (l : Str)
    (h1 : ∀ c, l.head? = some c → jsWS c = false)
    (h2 : ∀ c, l.getLast? = some c → jsWS c = false) : trimChars l = l := by
  unfold trimChars
  rw [dropWhile_eq_self_of_head jsWS l h1,
    dropWhile_eq_self_of_head jsWS l.reverse
      (fun c hc => h2 c (by rwa [List.head?_reverse] at hc)),
    List.reverse_reverse]

theorem trimChars_idem (s : Str) : trimChars (trimChars s) = trimChars s :=
  trimChars_of_trimmed _ (trimChars_head s) (trimChars_getLast s)

theorem filter_map_eq_filterMap {α : Type} (f : α → Str) (l : List α) :
    ((l.map f).filter fun s => !s.isEmpty) =
      l.filterMap fun a => if (f a).isEmpty then none else some (f a) := by
  induction l with
  | nil => rfl
  | cons a l ih =>
    simp only [List.map_cons, List.filter_cons, List.filterMap_cons]
    by_cases h : (f a).isEmpty
    · simp [h, ih]
    · simp [h, ih]

theorem sanitizeArgs_mem (v : JSVal) (s : Str) (h : s ∈ sanitizeArgs v) :
    s ≠ [] ∧ trimChars s = s := by
  have key : ∀ (l : List Str), s ∈ (l.map trimChars).filter (fun t => !t.isEmpty) →
      s ≠ [] ∧ trimChars s = s := by
    intro l hs
    rcases List.mem_filter.1 hs with ⟨hmem, hne⟩
    rcases List.mem_map.1 hmem with ⟨t, _, ht⟩
    refine ⟨?_, ht ▸ trimChars_idem t⟩
    intro hnil
    rw [hnil] at hne
    exact absurd hne (by simp)
  cases v with
  | vstr str => exact key _ h
  | varr items =>
      simp only [sanitizeArgs] at h
      rcases List.mem_filter.1 h with ⟨hmem, hne⟩
      rcases List.mem_map.1 hmem with ⟨it, _, hit⟩
      have hnil : s ≠ [] := by
        intro hnil
        rw [hnil] at hne
        exact absurd hne (by simp)
      refine ⟨hnil, ?_⟩
      cases it with
      | vstr t => exact hit ▸ trimChars_idem t
      | vnum n => exact absurd hit.symm hnil
      | vbool b => exact absurd hit.symm hnil
      | vnull => exact absurd hit.symm hnil
      | vundefined => exact absurd hit.symm hnil
      | varr xs => exact absurd hit.symm hnil
      | vobj fs => exact absurd hit.symm hnil
  | vnum n => exact absurd h (by simp [sanitizeArgs])
  | vbool b => exact absurd h (by simp [sanitizeArgs])
  | vnull => exact absurd h (by simp [sanitizeArgs])
  | vundefined => exact absurd h (by simp [sanitizeArgs])
  | vobj fields => exact absurd h (by simp [sanitizeArgs])

/-- C10: for every input value of any type, `sanitizeArgs` returns only
non-empty strings with no leading or trailing whitespace; an array keeps
its string elements trimmed and drops non-strings and empties; a string is
split on `/\r?\n/`, trimmed and filtered; every other input yields `[]`. -/
theorem claim_C10_sanitizeArgs :
    (∀ v : JSVal,
      ((sanitizeArgs v).all fun s => !s.isEmpty && decide (trimChars s = s))
        = true)
    ∧ (∀ items : List JSVal,
        sanitizeArgs (.varr items) = items.filterMap fun it =>
          match it with
          | .vstr s =>
              if (trimChars s).isEmpty then none else some (trimChars s)
          | _ => none)
    ∧ (∀ s : Str,
        sanitizeArgs (.vstr s) = (splitCRLF s).filterMap fun piece =>
          if (trimChars piece).isEmpty then none else some (trimChars piece))
    ∧ (∀ n : Int, sanitizeArgs (.vnum n) = [])
    ∧ (∀ b : Bool, sanitizeArgs (.vbool b) = [])
    ∧ sanitizeArgs .vnull = []
    ∧ sanitizeArgs .vundefined = []
    ∧ (∀ fields, sanitizeArgs (.vobj fields) = []) := by
  refine ⟨?_, ?_, ?_, fun _ => rfl, fun _ => rfl, rfl, rfl, fun _ => rfl⟩
  · intro v
    rw [List.all_eq_true]
    intro s hs
    rcases sanitizeArgs_mem v s hs with ⟨hne, htrim⟩
    simp [htrim, List.isEmpty_iff, hne]
  · intro items
    simp only [sanitizeArgs]
    rw [filter_map_eq_filterMap]
    apply List.filterMap_congr
    intro it _
    cases it <;> rfl
  · intro s
    simp only [sanitizeArgs]
    rw [filter_map_eq_filterMap]

theorem dedupFirstAux_eq_spec :
    ∀ (l : List AgentEnvVar) (seen : List Str),
      dedupFirstAux seen l =
        specDedupFirst (l.filter fun q => decide (q.key ∉ seen)) := by
  intro l
  induction l with
  | nil => intro seen; simp [dedupFirstAux, specDedupFirst]
  | cons p ps ih =>
    intro seen
    rw [List.filter_cons]
    by_cases h : p.key ∈ seen
    · have hd : decide (p.key ∉ seen) = false := by simp [h]
      rw [hd]
      simp only [dedupFirstAux, if_pos h, Bool.false_eq_true, if_false]
      exact ih seen
    · have hd : decide (p.key ∉ seen) = true := by simp [h]
      rw [hd]
      simp only [dedupFirstAux, if_neg h, if_true]
      rw [specDedupFirst, List.filter_filter]
      have hfun : (fun a : AgentEnvVar =>
          decide (a.key ≠ p.key) && decide (a.key ∉ seen)) =
          fun q : AgentEnvVar => decide (q.key ∉ p.key :: seen) := by
        funext q
        by_cases h1 : q.key ∈ seen <;> by_cases h2 : q.key = p.key <;>
          simp [h1, h2]
      rw [hfun, ih (p.key :: seen)]

theorem dedupFirstAux_keys_nodup :
    ∀ (l : List AgentEnvVar) (seen : List Str),
      ((dedupFirstAux seen l).map (·.key)).Nodup ∧
        ∀ k ∈ (dedupFirstAux seen l).map (·.key), k ∉ seen := by
  intro l
  induction l with
  | nil =>
      intro seen
      exact ⟨by simp [dedupFirstAux], by simp [dedupFirstAux]⟩
  | cons p ps ih =>
    intro seen
    by_cases h : p.key ∈ seen
    · simpa [dedupFirstAux, h] using ih seen
    · have ihs := ih (p.key :: seen)
      simp only [dedupFirstAux, if_neg h, List.map_cons]
      constructor
      · rw [List.nodup_cons]
        exact ⟨fun hm => (ihs.2 _ hm) (List.mem_cons_self _ _), ihs.1⟩
      · intro k hk
        rcases List.mem_cons.1 hk with hk | hk
        · rw [hk]; exact h
        · intro hks
          exact (ihs.2 k hk) (List.mem_cons_of_mem _ hks)

theorem normalizeEnvVars_keys_nodup (v : JSVal) :
    ((normalizeEnvVars v).map (·.key)).Nodup := by
  unfold normalizeEnvVars
  by_cases h : jsTruthy v
  · simp only [h]
    exact (dedupFirstAux_keys_nodup _ []).1
  · simp [h]

theorem normalizeEntry_encode (e : AgentEnvVar) :
    normalizeEntry (encodeEnvVar e) =
      if (trimChars e.key).isEmpty then none
      else some ⟨trimChars e.key, e.value⟩ := rfl

theorem normalizeEnvVars_encode (l : List AgentEnvVar) :
    normalizeEnvVars (.varr (l.map encodeEnvVar)) = specNormalize l := by
  unfold normalizeEnvVars specNormalize
  simp only [jsTruthy, Bool.not_true, Bool.false_eq_true, if_false]
  rw [List.filterMap_map, dedupFirstAux_eq_spec]
  congr 1
  have hall : ∀ q : AgentEnvVar, (decide (q.key ∉ ([] : List Str))) = true := by
    intro q; simp
  rw [List.filter_congr (fun q _ => hall q), List.filter_true]
  apply List.filterMap_congr
  intro e _
  exact normalizeEntry_encode e

/-- C1: `normalizeEnvVars` on a sequence of `EnvVar`-shaped entries
agrees with the spec-side normalization (trim keys, drop empty trimmed
keys, deduplicate with the first occurrence winning), its result keys are
unique for every input value, and on the concrete scenario
`[{A,1},{A,2},{ B ,x}]` it yields `[{A,1},{B,x}]`. -/
theorem claim_C1_normalizeEnvVars :
    (∀ l : List AgentEnvVar,
        normalizeEnvVars (.varr (l.map encodeEnvVar)) = specNormalize l)
    ∧ (∀ v : JSVal, ((normalizeEnvVars v).map (·.key)).Nodup)
    ∧ normalizeEnvVars (.varr
        (([⟨"A".toList, "1".toList⟩, ⟨"A".toList, "2".toList⟩,
           ⟨" B ".toList, "x".toList⟩] : List AgentEnvVar).map encodeEnvVar))
      = [⟨"A".toList, "1".toList⟩, ⟨"B".toList, "x".toList⟩] :=
  ⟨normalizeEnvVars_encode, normalizeEnvVars_keys_nodup, by decide⟩

theorem find?_mapSet (m : List (Str × Str)) (k v : Str)
    (h : m.any (fun p => decide (p.1 = k)) = true) :
    (m.map fun p => if p.1 = k then (k, v) else p).find?
        (fun p => decide (p.1 = k)) = some (k, v) := by
  induction m with
  | nil => simp at h
  | cons q m ih =>
    simp only [List.map_cons]
    by_cases hq : q.1 = k
    · rw [if_pos hq]
      exact List.find?_cons_of_pos _ (by simp)
    · rw [if_neg hq, List.find?_cons_of_neg _ (by simp [hq])]
      apply ih
      simp only [List.any_cons] at h
      simpa [hq] using h

theorem find?_mapSet_ne (m : List (Str × Str)) (k v k' : Str)
    (hne : k' ≠ k) :
    (m.map fun p => if p.1 = k then (k, v) else p).find?
        (fun p => decide (p.1 = k')) =
      m.find? (fun p => decide (p.1 = k')) := by
  induction m with
  | nil => rfl
  | cons q m ih =>
    simp only [List.map_cons, List.find?_cons]
    by_cases hq : q.1 = k
    · have e1 : decide ((if q.1 = k then (k, v) else q).1 = k') = false := by
        simp [hq, Ne.symm hne]
      have e2 : decide (q.1 = k') = false := by simp [hq, Ne.symm hne]
      rw [e1, e2]
      exact ih
    · rw [if_neg hq]
      cases hdec : decide (q.1 = k')
      · exact ih
      · rfl

theorem recordLookup_recordSet (m : List (Str × Str)) (k v k' : Str) :
    recordLookup (recordSet m k v) k' =
      if k' = k then some v else recordLookup m k' := by
  unfold recordLookup recordSet
  by_cases hmem : m.any (fun p => decide (p.1 = k)) = true
  · rw [if_pos hmem]
    by_cases hk : k' = k
    · subst hk
      rw [find?_mapSet m k' v hmem, if_pos rfl]
      rfl
    · rw [find?_mapSet_ne m k v k' hk, if_neg hk]
  · rw [if_neg hmem, List.find?_append]
    by_cases hk : k' = k
    · subst hk
      have hnone : m.find? (fun p => decide (p.1 = k')) = none := by
        rw [List.find?_eq_none]
        intro p hp hpk
        exact hmem (List.any_eq_true.2 ⟨p, hp, hpk⟩)
      rw [hnone, if_pos rfl]
      simp [List.find?_cons]
    · have hkk : (k : Str) ≠ k' := Ne.symm hk
      have hnone2 : ([(k, v)] : List (Str × Str)).find?
          (fun p => decide (p.1 = k')) = none := by
        simp [List.find?_cons, hkk]
      rw [hnone2, if_neg hk]
      cases m.find? (fun p => decide (p.1 = k')) <;> rfl

theorem keys_recordSet (m : List (Str × Str)) (k v : Str) :
    (recordSet m k v).map (·.1) =
      if m.any (fun p => decide (p.1 = k)) = true then m.map (·.1)
      else m.map (·.1) ++ [k] := by
  unfold recordSet
  by_cases h : m.any (fun p => decide (p.1 = k)) = true
  · rw [if_pos h, if_pos h, List.map_map]
    apply List.map_congr_left
    intro p _
    by_cases hpk : p.1 = k
    · simp [hpk]
    · simp [hpk]
  · rw [if_neg h, if_neg h, List.map_append]
    rfl

theorem keys_nodup_recordSet (m : List (Str × Str)) (k v : Str)
    (h : (m.map (·.1)).Nodup) : ((recordSet m k v).map (·.1)).Nodup := by
  rw [keys_recordSet]
  by_cases hmem : m.any (fun p => decide (p.1 = k)) = true
  · rw [if_pos hmem]; exact h
  · rw [if_neg hmem]
    have hnot : k ∉ m.map (·.1) := by
      intro hk
      rcases List.mem_map.1 hk with ⟨p, hp, hpk⟩
      exact hmem (List.any_eq_true.2 ⟨p, hp, by simp [hpk]⟩)
    refine List.nodup_append.2 ⟨h, List.nodup_singleton k, ?_⟩
    intro a ha hak
    rw [List.mem_singleton] at hak
    exact hnot (hak ▸ ha)

theorem buildEnv_keys_nodup_aux :
    ∀ (l : List AgentEnvVar) (m : List (Str × Str)),
      (m.map (·.1)).Nodup →
      ((l.foldl (fun acc e => recordSet acc e.key e.value) m).map
        (·.1)).Nodup := by
  intro l
  induction l with
  | nil => intro m h; exact h
  | cons e l ih =>
      intro m h
      exact ih _ (keys_nodup_recordSet m e.key e.value h)

theorem recordLookup_foldl :
    ∀ (l : List AgentEnvVar) (m : List (Str × Str)) (k : Str),
      recordLookup (l.foldl (fun acc e => recordSet acc e.key e.value) m) k =
        l.foldl (fun acc e => if e.key = k then some e.value else acc)
          (recordLookup m k) := by
  intro l
  induction l with
  | nil => intro m k; rfl
  | cons e l ih =>
    intro m k
    simp only [List.foldl_cons]
    rw [ih]
    congr 1
    rw [recordLookup_recordSet]
    by_cases h : e.key = k
    · rw [if_pos h, if_pos h.symm]
    · rw [if_neg h, if_neg (fun hh => h hh.symm)]

/-- C2: the env mapping of every constructed `AgentConfig` has unique
keys; looking a key up yields the value of the last occurrence of that key
in the input `EnvVar` sequence (last write wins); keys are compared
case-sensitively, as the concrete `a`/`A` scenario shows. -/
theorem claim_C2_toAgentConfig :
    (∀ (settings : BaseAgentSettings) (wd : Str),
        (((toAgentConfig settings wd).env.map (·.1)).Nodup))
    ∧ (∀ (settings : BaseAgentSettings) (wd : Str) (k : Str),
        recordLookup (toAgentConfig settings wd).env k = lastOcc settings.env k)
    ∧ (recordLookup (toAgentConfig
          ⟨[], [], [], [], [], [⟨['a'], ['1']⟩, ⟨['A'], ['2']⟩]⟩ []).env ['a']
        = some ['1']
      ∧ recordLookup (toAgentConfig
          ⟨[], [], [], [], [], [⟨['a'], ['1']⟩, ⟨['A'], ['2']⟩]⟩ []).env ['A']
        = some ['2']
      ∧ recordLookup (toAgentConfig
          ⟨[], [], [], [], [], [⟨['a'], ['1']⟩, ⟨['a'], ['2']⟩]⟩ []).env ['a']
        = some ['2']) := by
  refine ⟨?_, ?_, by decide, by decide, by decide⟩
  · intro s wd
    exact buildEnv_keys_nodup_aux s.env [] (by simp)
  · intro s wd k
    show recordLookup (buildEnv s.env) k = lastOcc s.env k
    unfold buildEnv lastOcc
    rw [recordLookup_foldl]
    rfl

/-- C3 counterexample: with the default (never-configured) settings —
reachable since `loadSettings` resolves the command of empty stored data
to the default — `toAgentConfig` hands the transport a config whose
`command` is the empty string, refuting the claimed invariant. -/
theorem claim_C3_counterexample :
    (toAgentConfig DEFAULT_claude "vault".toList).command = []
    ∧ loadClaudeCommand .vundefined .vundefined = [] :=
  ⟨rfl, rfl⟩

theorem trimChars_loadLegacy (lf : JSVal) :
    trimChars (loadLegacyCommand lf) = loadLegacyCommand lf := by
  unfold loadLegacyCommand
  cases lf <;> try rfl
  case vstr s =>
    by_cases h : (trimChars s).isEmpty
    · simp only [if_pos h]
      rfl
    · simp only [if_neg h]
      exact trimChars_idem s

/-- C3 as amended: `toAgentConfig` copies `settings.command` verbatim and
guarantees no non-emptiness — the config's command is non-empty exactly
when the configured command is; `loadSettings` always yields an
already-trimmed command (empty for unset settings). -/
theorem claim_C3_command :
    (∀ (settings : BaseAgentSettings) (wd : Str),
        (toAgentConfig settings wd).command = settings.command)
    ∧ (∀ (settings : BaseAgentSettings) (wd : Str),
        ((toAgentConfig settings wd).command = [] ↔ settings.command = []))
    ∧ (∀ cf lf : JSVal,
        trimChars (loadClaudeCommand cf lf) = loadClaudeCommand cf lf) := by
  refine ⟨fun _ _ => rfl, fun _ _ => Iff.rfl, ?_⟩
  intro cf lf
  unfold loadClaudeCommand
  cases cf <;> try exact trimChars_loadLegacy lf
  case vstr s =>
    by_cases h : (trimChars s).isEmpty
    · simp only [if_pos h]
      exact trimChars_loadLegacy lf
    · simp only [if_neg h]
      exact trimChars_idem s

/-- C8: `registerPermissionCommands` registers host commands whose
callbacks, routed through the agent-client workspace events, dispatch the
cancel, approve-permission and reject-permission engine operations
respectively (event-to-operation routing modelled from spec section 6). -/
theorem claim_C8_registerPermissionCommands :
    ((registerPermissionCommands.find? fun c =>
        decide (c.id = "cancel-current-message".toList)).map commandDispatches)
      = some [.cancelTurn]
    ∧ ((registerPermissionCommands.find? fun c =>
        decide (c.id = "approve-active-permission".toList)).map
          commandDispatches)
      = some [.resolvePermissionApprove]
    ∧ ((registerPermissionCommands.find? fun c =>
        decide (c.id = "reject-active-permission".toList)).map
          commandDispatches)
      = some [.resolvePermissionReject]
    ∧ (registerPermissionCommands.map (·.id)) =
        ["approve-active-permission".toList, "reject-active-permission".toList,
         "toggle-auto-mention".toList, "cancel-current-message".toList] := by
  refine ⟨by decide, by decide, by decide, by decide⟩

theorem sessionInv_step (s : Session) (op : SessionOp)
    (h : s.inFlight =
      if s.state = .busy ∨ s.state = .cancelling then 1 else 0) :
    (stepSession s op).2.inFlight =
      if (stepSession s op).2.state = .busy ∨
          (stepSession s op).2.state = .cancelling then 1 else 0 := by
  cases op <;> cases s with
  | mk st n => cases st <;> simp_all [stepSession]

theorem sessionInv_run :
    ∀ (ops : List SessionOp) (s : Session),
      s.inFlight =
        (if s.state = .busy ∨ s.state = .cancelling then 1 else 0) →
      (runSession s ops).inFlight =
        if (runSession s ops).state = .busy ∨
            (runSession s ops).state = .cancelling then 1 else 0 := by
  intro ops
  induction ops with
  | nil => intro s h; exact h
  | cons op ops ih =>
      intro s h
      exact ih _ (sessionInv_step s op h)

/-- C4: calling `sendTurn` on a busy session always fails synchronously
with `SessionBusyError` and leaves the session exactly as it was; along
every operation sequence from a fresh session at most one turn is ever in
flight. -/
theorem claim_C4_sendTurn_busy :
    (∀ n : Nat,
        stepSession ⟨.busy, n⟩ .sendTurn = (.sessionBusyError, ⟨.busy, n⟩))
    ∧ (∀ ops : List SessionOp, (runSession initialSession ops).inFlight ≤ 1) := by
  constructor
  · intro n
    rfl
  · intro ops
    have h := sessionInv_run ops initialSession (by rfl)
    rw [h]
    split <;> simp

theorem stepCorr_nextId_nonissue (c : Correlator) :
    ∀ op : CorrOp, op ≠ .issue → (stepCorr c op).nextId = c.nextId := by
  intro op hop
  cases op with
  | issue => exact absurd rfl hop
  | resolve id =>
      show (corrResolve c id).nextId = c.nextId
      unfold corrResolve
      split <;> rfl
  | failAll reason => rfl

theorem issuedIds_eq_range :
    ∀ (ops : List CorrOp) (c : Correlator),
      issuedIds c ops = List.range' c.nextId (countIssues ops) := by
  intro ops
  induction ops with
  | nil => intro c; rfl
  | cons op ops ih =>
    intro c
    cases op with
    | issue =>
        show (corrIssue c).1 :: issuedIds (corrIssue c).2 ops = _
        rw [ih]
        have hc : countIssues (CorrOp.issue :: ops) = countIssues ops + 1 := by
          simp [countIssues, List.filter_cons]
        rw [hc, List.range'_succ]
        rfl
    | resolve id =>
        show issuedIds (stepCorr c (.resolve id)) ops = _
        rw [ih]
        have hc : countIssues (CorrOp.resolve id :: ops) = countIssues ops := by
          simp [countIssues, List.filter_cons]
        rw [hc, stepCorr_nextId_nonissue c _ (by simp)]
    | failAll reason =>
        show issuedIds (stepCorr c (.failAll reason)) ops = _
        rw [ih]
        have hc : countIssues (CorrOp.failAll reason :: ops) = countIssues ops := by
          simp [countIssues, List.filter_cons]
        rw [hc]
        rfl

theorem corrInv_step (c : Correlator) (op : CorrOp)
    (hnd : c.pending.Nodup) (hlt : ∀ id ∈ c.pending, id < c.nextId) :
    (stepCorr c op).pending.Nodup ∧
      ∀ id ∈ (stepCorr c op).pending, id < (stepCorr c op).nextId := by
  cases op with
  | issue =>
      constructor
      · refine List.nodup_append.2 ⟨hnd, List.nodup_singleton _, ?_⟩
        intro a ha hak
        rw [List.mem_singleton] at hak
        exact absurd (hlt a ha) (by rw [hak]; exact Nat.lt_irrefl _)
      · intro id hid
        rcases List.mem_append.1 hid with h | h
        · exact Nat.lt_trans (hlt id h) (Nat.lt_succ_self _)
        · rw [List.mem_singleton] at h
          rw [h]
          exact Nat.lt_succ_self _
  | resolve rid =>
      have hstep : stepCorr c (.resolve rid) = corrResolve c rid := rfl
      rw [hstep]
      unfold corrResolve
      split
      · refine ⟨hnd.erase rid, ?_⟩
        intro id hid
        exact hlt id (List.erase_subset _ _ hid)
      · exact ⟨hnd, hlt⟩
  | failAll reason =>
      exact ⟨List.nodup_nil, fun id hid => absurd hid (List.not_mem_nil id)⟩

theorem corrInv_run :
    ∀ (ops : List CorrOp) (c : Correlator),
      c.pending.Nodup → (∀ id ∈ c.pending, id < c.nextId) →
      (runCorr c ops).pending.Nodup ∧
        ∀ id ∈ (runCorr c ops).pending, id < (runCorr c ops).nextId := by
  intro ops
  induction ops with
  | nil => intro c h1 h2; exact ⟨h1, h2⟩
  | cons op ops ih =>
      intro c h1 h2
      rcases corrInv_step c op h1 h2 with ⟨h1', h2'⟩
      exact ih _ h1' h2'

/-- C5: along every operation sequence from a fresh correlator the ids
handed out by `issue` are exactly `1, 2, 3, ...` in order — assigned from
a monotonically increasing counter starting at 1 and never reused, even
after requests complete — and the outstanding-request table never holds
two entries for one id. -/
theorem claim_C5_correlator_ids :
    ∀ ops : List CorrOp,
      issuedIds initialCorrelator ops = List.range' 1 (countIssues ops)
      ∧ (runCorr initialCorrelator ops).pending.Nodup := by
  intro ops
  refine ⟨issuedIds_eq_range ops initialCorrelator, ?_⟩
  exact (corrInv_run ops initialCorrelator List.nodup_nil
    (by intro id hid; simp [initialCorrelator] at hid)).1

theorem runCorr_issues :
    ∀ (k : Nat) (c : Correlator),
      runCorr c (List.replicate k .issue) =
        ⟨c.nextId + k, c.pending ++ List.range' c.nextId k, c.log⟩ := by
  intro k
  induction k with
  | zero =>
      intro c
      cases c
      simp [runCorr]
  | succ k ih =>
      intro c
      rw [List.replicate_succ]
      show runCorr (stepCorr c .issue) (List.replicate k .issue) = _
      rw [ih]
      show (⟨c.nextId + 1 + k,
          (c.pending ++ [c.nextId]) ++ List.range' (c.nextId + 1) k,
          c.log⟩ : Correlator) = _
      rw [List.append_assoc, List.singleton_append, ← List.range'_succ]
      have harith : c.nextId + 1 + k = c.nextId + (k + 1) := by omega
      rw [harith]

theorem filter_map_pair_eq (reason : Str) :
    ∀ (l : List Nat), l.Nodup → ∀ id ∈ l,
      ((l.map fun j => (j, ResOutcome.failed reason)).filter
        fun e => decide (e.1 = id)) = [(id, .failed reason)] := by
  intro l
  induction l with
  | nil => intro _ id hid; exact absurd hid (List.not_mem_nil id)
  | cons j l ih =>
      intro hnd id hid
      rcases List.nodup_cons.1 hnd with ⟨hj, hnd'⟩
      simp only [List.map_cons, List.filter_cons]
      rcases List.mem_cons.1 hid with h | h
      · subst h
        have htail : ((l.map fun j => (j, ResOutcome.failed reason)).filter
            fun e => decide (e.1 = id)) = [] := by
          rw [List.filter_eq_nil_iff]
          intro e he
          rcases List.mem_map.1 he with ⟨i, hi, heq⟩
          rw [← heq]
          simp
          intro hij
          exact hj (hij ▸ hi)
        simp [htail]
      · have hne : (j : Nat) ≠ id := fun he => hj (he ▸ h)
        simp only [show decide ((j, ResOutcome.failed reason).1 = id) = false
            by simp [hne], Bool.false_eq_true, if_false]
        exact ih hnd' id h

theorem corrLog_stable :
    ∀ (ops : List CorrOp) (c : Correlator) (n : Nat),
      n < c.nextId → (∀ id ∈ c.pending, n < id) →
      ((runCorr c ops).log.filter fun e => decide (e.1 ≤ n)) =
          (c.log.filter fun e => decide (e.1 ≤ n))
        ∧ n < (runCorr c ops).nextId
        ∧ ∀ id ∈ (runCorr c ops).pending, n < id := by
  intro ops
  induction ops with
  | nil => intro c n h1 h2; exact ⟨rfl, h1, h2⟩
  | cons op ops ih =>
      intro c n h1 h2
      have hstep : (n < (stepCorr c op).nextId ∧
          ∀ id ∈ (stepCorr c op).pending, n < id) ∧
          ((stepCorr c op).log.filter fun e => decide (e.1 ≤ n)) =
            (c.log.filter fun e => decide (e.1 ≤ n)) := by
        cases op with
        | issue =>
            refine ⟨⟨Nat.lt_trans h1 (Nat.lt_succ_self _), ?_⟩, rfl⟩
            intro id hid
            rcases List.mem_append.1 hid with h | h
            · exact h2 id h
            · rw [List.mem_singleton] at h
              rw [h]
              exact h1
        | resolve rid =>
            have hr : stepCorr c (.resolve rid) = corrResolve c rid := rfl
            rw [hr]
            unfold corrResolve
            split
            · next hmem =>
                refine ⟨⟨h1,
                  fun id hid => h2 id (List.erase_subset _ _ hid)⟩, ?_⟩
                rw [List.filter_append]
                have hfalse : decide ((rid : Nat) ≤ n) = false := by
                  have := h2 rid hmem
                  simp
                  omega
                simp [List.filter_cons, hfalse]
            · exact ⟨⟨h1, h2⟩, rfl⟩
        | failAll reason =>
            refine ⟨⟨h1, fun id hid => absurd hid (List.not_mem_nil id)⟩, ?_⟩
            show ((c.log ++ c.pending.map fun id =>
              (id, ResOutcome.failed reason)).filter fun e =>
                decide (e.1 ≤ n)) = _
            rw [List.filter_append]
            have hnil : ((c.pending.map fun id =>
                (id, ResOutcome.failed reason)).filter fun e =>
                  decide (e.1 ≤ n)) = [] := by
              rw [List.filter_eq_nil_iff]
              intro e he
              rcases List.mem_map.1 he with ⟨i, hi, heq⟩
              rw [← heq]
              have := h2 i hi
              simp
              omega
            rw [hnil, List.append_nil]
      rcases hstep with ⟨⟨ha, hb⟩, hc⟩
      rcases ih (stepCorr c op) n ha hb with ⟨l1, l2, l3⟩
      exact ⟨l1.trans hc, l2, l3⟩

/-- C6: after `n` issues with no matching responses, `failAll reason`
resolves each outstanding request exactly once with a failure carrying
`reason` (the resolution log holds exactly one entry per issued id), and
afterwards no continuation of any kind can add a resolution for any of
them (idempotent close: their log entries are final). -/
theorem claim_C6_failAll :
    ∀ (n : Nat) (reason : Str) (later : List CorrOp),
      ((List.range' 1 n).all fun id =>
        decide (((corrFailAll
            (runCorr initialCorrelator (List.replicate n .issue))
              reason).log.filter fun e => decide (e.1 = id)) =
          [(id, .failed reason)])) = true
      ∧ ((runCorr (corrFailAll
            (runCorr initialCorrelator (List.replicate n .issue)) reason)
            later).log.filter fun e => decide (e.1 ≤ n)) =
          ((corrFailAll
            (runCorr initialCorrelator (List.replicate n .issue))
              reason).log.filter fun e => decide (e.1 ≤ n))
      ∧ (corrFailAll
            (runCorr initialCorrelator (List.replicate n .issue))
              reason).pending = [] := by
  intro n reason later
  have hrun : runCorr initialCorrelator (List.replicate n .issue) =
      ⟨1 + n, List.range' 1 n, []⟩ := by
    rw [runCorr_issues]
    rfl
  have hclosed : corrFailAll
      (runCorr initialCorrelator (List.replicate n .issue)) reason =
      ⟨1 + n, [], (List.range' 1 n).map fun id =>
        (id, ResOutcome.failed reason)⟩ := by
    rw [hrun]
    rfl
  refine ⟨?_, ?_, by rw [hclosed]⟩
  · rw [List.all_eq_true]
    intro id hid
    rw [hclosed]
    have hnd : (List.range' 1 n).Nodup := List.nodup_range' 1 n
    simp only [decide_eq_true_eq]
    exact filter_map_pair_eq reason (List.range' 1 n) hnd id hid
  · rw [hclosed]
    have hstable := corrLog_stable later
      ⟨1 + n, [], (List.range' 1 n).map fun id =>
        (id, ResOutcome.failed reason)⟩ n
      (by show n < 1 + n; omega)
      (by intro id hid; exact absurd hid (List.not_mem_nil id))
    exact hstable.1

theorem feedCodec_append :
    ∀ (a b buf : Str),
      feedCodec buf (a ++ b) =
        ((feedCodec buf a).1 ++ (feedCodec (feedCodec buf a).2 b).1,
         (feedCodec (feedCodec buf a).2 b).2) := by
  intro a
  induction a with
  | nil => intro b buf; rfl
  | cons c cs ih =>
    intro b buf
    by_cases h : c = '\n'
    · rw [List.cons_append]
      simp only [feedCodec, if_pos h]
      rw [ih b []]
      rfl
    · rw [List.cons_append]
      simp only [feedCodec, if_neg h]
      rw [ih b (buf ++ [c])]

/-- C7: delivering an inbound byte stream to the codec in arbitrarily
split chunks yields exactly the lines (and trailing fragment) of
delivering it as one contiguous buffer; message decoding is applied per
complete line, so the reconstructed message sequence is identical for
every split (framing is boundary-independent). -/
theorem claim_C7_codec_boundary_independent :
    ∀ (chunks : List Str) (buf : Str),
      feedCodecAll buf chunks = feedCodec buf chunks.flatten := by
  intro chunks
  induction chunks with
  | nil => intro buf; rfl
  | cons chunk chunks ih =>
    intro buf
    show (let r := feedCodec buf chunk
          let rs := feedCodecAll r.2 chunks
          (r.1 ++ rs.1, rs.2)) = _
    rw [List.flatten_cons, feedCodec_append]
    simp only [ih (feedCodec buf chunk).2]

theorem readLoop_none :
    ∀ (files : List FsFile) (acc : List SubAgentMetadata),
      (files.any fun f => f.content.isNone) = true → readLoop files acc = none := by
  intro files
  induction files with
  | nil => intro acc h; simp at h
  | cons f rest ih =>
      intro acc h
      cases hc : f.content with
      | none => simp only [readLoop, hc]
      | some c =>
          have htail : (rest.any fun f => f.content.isNone) = true := by
            rcases List.any_eq_true.1 h with ⟨g, hg, hnone⟩
            rcases List.mem_cons.1 hg with hgf | hgr
            · subst hgf
              rw [hc] at hnone
              simp at hnone
            · exact List.any_eq_true.2 ⟨g, hgr, hnone⟩
          simp only [readLoop, hc]
          cases subAgentOf (pathJoin agentsDir f.name) c with
          | some sa => exact ih _ htail
          | none => exact ih _ htail

theorem readLoop_some :
    ∀ (files : List FsFile) (acc : List SubAgentMetadata),
      (∀ f ∈ files, f.content.isSome = true) →
      readLoop files acc = some (acc ++ files.filterMap fun f =>
        f.content.bind (subAgentOf (pathJoin agentsDir f.name))) := by
  intro files
  induction files with
  | nil => intro acc _; simp [readLoop]
  | cons f rest ih =>
      intro acc h
      have hf := h f (List.mem_cons_self f rest)
      cases hc : f.content with
      | none => rw [hc] at hf; simp at hf
      | some c =>
          have htail : ∀ g ∈ rest, g.content.isSome = true :=
            fun g hg => h g (List.mem_cons_of_mem f hg)
          simp only [readLoop, hc]
          rw [List.filterMap_cons, hc, Option.some_bind]
          cases hsa : subAgentOf (pathJoin agentsDir f.name) c with
          | some sa =>
              simp only [hsa]
              rw [ih _ htail, List.append_assoc]
              rfl
          | none =>
              simp only [hsa]
              exact ih _ htail

theorem subAgentOf_nonempty (fp c : Str) (e : SubAgentMetadata)
    (h : subAgentOf fp c = some e) :
    (!e.name.isEmpty && !e.description.isEmpty) = true := by
  unfold subAgentOf at h
  cases hfm : parseFrontmatter c with
  | none =>
      simp only [hfm] at h
      exact Option.noConfusion h
  | some fm =>
      simp only [hfm] at h
      cases hn : fmGet fm "name".toList with
      | none =>
          simp only [hn] at h
          exact Option.noConfusion h
      | some n =>
          cases hd : fmGet fm "description".toList with
          | none =>
              simp only [hn, hd] at h
              exact Option.noConfusion h
          | some d =>
              simp only [hn, hd] at h
              by_cases hcond : (!n.isEmpty && !d.isEmpty) = true
              · rw [if_pos hcond] at h
                injection h with h2
                subst h2
                exact hcond
              · rw [if_neg hcond] at h
                exact absurd h (by simp)

/-- C9 counterexample: the file `a.md` whose frontmatter block defines
both a `name` and a `description` key — `name` with an empty value —
produces no entry, although the claim requires one entry for every `.md`
file whose frontmatter defines both keys. -/
theorem claim_C9_counterexample :
    getSubAgents ceFs = []
    ∧ strEndsWith ("a.md".toList) (".md".toList) = true
    ∧ fmDefines ceContent ("name".toList) = true
    ∧ fmDefines ceContent ("description".toList) = true := by
  refine ⟨by decide, by decide, by decide, by decide⟩

/-- C9 as amended: `getSubAgents` is total on every filesystem state and
returns `[]` when the agents directory is missing, listing it fails, or
reading any `.md` file fails; otherwise it returns exactly one entry per
`.md` file whose frontmatter defines both `name` and `description` with
non-empty values (the per-file condition is `subAgentOf`), and every
returned entry has a non-empty name and description. -/
theorem claim_C9_getSubAgents :
    ∀ fs : FsState,
      getSubAgents fs =
        (if (!fs.dirExists || fs.readDirError
            || fs.files.any fun f =>
                strEndsWith f.name ".md".toList && f.content.isNone) = true
         then []
         else (fs.files.filter fun f =>
            strEndsWith f.name ".md".toList).filterMap fun f =>
              f.content.bind (subAgentOf (pathJoin agentsDir f.name)))
      ∧ ((getSubAgents fs).all fun e =>
          !e.name.isEmpty && !e.description.isEmpty) = true := by
  intro fs
  have hmain : getSubAgents fs =
      (if (!fs.dirExists || fs.readDirError
          || fs.files.any fun f =>
              strEndsWith f.name ".md".toList && f.content.isNone) = true
       then []
       else (fs.files.filter fun f =>
          strEndsWith f.name ".md".toList).filterMap fun f =>
            f.content.bind (subAgentOf (pathJoin agentsDir f.name))) := by
    cases hdir : fs.dirExists with
    | false => simp [getSubAgents, hdir]
    | true =>
        cases hre : fs.readDirError with
        | true => simp [getSubAgents, hdir, hre]
        | false =>
            simp only [getSubAgents, hdir, hre, Bool.not_true,
              Bool.false_or, if_false, Bool.false_eq_true]
            rw [← List.any_filter]
            by_cases hany : ((fs.files.filter fun f =>
                strEndsWith f.name ".md".toList).any fun f =>
                  f.content.isNone) = true
            · rw [readLoop_none _ [] hany, if_pos hany]
            · have hany' : ((fs.files.filter fun f =>
                  strEndsWith f.name ".md".toList).any fun f =>
                    f.content.isNone) = false := by
                revert hany
                cases ((fs.files.filter fun f =>
                    strEndsWith f.name ".md".toList).any fun f =>
                      f.content.isNone) <;> simp
              have hall : ∀ f ∈ (fs.files.filter fun f =>
                  strEndsWith f.name ".md".toList), f.content.isSome = true := by
                intro f hf
                have hnn := List.any_eq_false.1 hany' f hf
                cases hc : f.content with
                | none => rw [hc] at hnn; simp at hnn
                | some c => rfl
              rw [readLoop_some _ [] hall, if_neg hany]
              simp
  refine ⟨hmain, ?_⟩
  rw [List.all_eq_true]
  intro e he
  rw [hmain] at he
  by_cases hcond : (!fs.dirExists || fs.readDirError
      || fs.files.any fun f =>
          strEndsWith f.name ".md".toList && f.content.isNone) = true
  · rw [if_pos hcond] at he
    exact absurd he (List.not_mem_nil e)
  · rw [if_neg hcond] at he
    rcases List.mem_filterMap.1 he with ⟨f, _, hbind⟩
    rcases Option.bind_eq_some.1 hbind with ⟨c, _, hsa⟩
    exact subAgentOf_nonempty _ c e hsa
